import Mathlib

/-!
Verification of the reducer tree (a treap maintaining cached monoid
reductions of subtrees) from reducer_tree.h, together with its facade
class.  Trees are embedded shallowly: `RTree` mirrors `ReducerNode`
(priority, key, value, cached reduced value, children), the `ReducerSpec`
structure packages the reducer type contract (default element, seed
constructor from a key/value pair, binary combine), and each C++ member
function becomes a Lean function of the same name.  C++ `assert(false)`
branches (duplicate keys reaching `Split`, or the duplicate-key case of
`ReducerNode::Insert`) are modelled by an `Option` result: `none` means
the assertion fired.  The facade's random priority source is modelled by
passing the sampled priority as an explicit argument, and the fresh
node's uninitialised `_reduced` field as an explicit arbitrary value.
-/

set_option maxHeartbeats 1000000
set_option linter.unusedSectionVars false

namespace ReducerTree

/-- Mirror of `ReducerNode<K, V, Reducer>`: a (sub)tree is either the null
pointer or a node holding a priority (`size_t`, modelled as `Nat`), a key,
a value, the cached `_reduced` field and two owned children. -/
inductive RTree (K V R : Type) : Type where
  | nil : RTree K V R
  | node (priority : Nat) (key : K) (value : V) (reduced : R)
      (left : RTree K V R) (right : RTree K V R) : RTree K V R
  deriving DecidableEq

/-- The reducer type contract used by the C++ templates: a default
(identity) element, the seed constructor `Reducer(key, value)` and the
binary combine `operator+`. -/
structure ReducerSpec (K V R : Type) where
  default : R
  seed : K → V → R
  add : R → R → R

variable {K V R : Type}

/-- Mirror of `ReducerNode::Reduce`: the cached `_reduced` of a non-null
node, and `Reducer()` for null. -/
def Reduce (S : ReducerSpec K V R) : RTree K V R → R
  | .nil => S.default
  | .node _ _ _ red _ _ => red

/-- The value computed by `ReducerNode::RecomputeReduced` for a node with
key `k`, value `v` and children `l`, `r`: start from `Reducer(key, value)`,
combine the left child's cached reduction on the left if present, then the
right child's on the right if present. -/
def recomputedOf (S : ReducerSpec K V R) (k : K) (v : V) (l r : RTree K V R) : R :=
  let r1 := S.seed k v
  let r2 :=
    match l with
    | .nil => r1
    | .node _ _ _ lred _ _ => S.add lred r1
  match r with
  | .nil => r2
  | .node _ _ _ rred _ _ => S.add r2 rred

/-- A node whose children have just been replaced and whose `_reduced`
field has been recomputed; this is the effect of the C++ helpers
`SetLeftAndUpdateReduced`, `SetRightAndUpdateReduced` and
`SetBothAndUpdateReduced`. -/
def mkNode (S : ReducerSpec K V R) (p : Nat) (k : K) (v : V)
    (l r : RTree K V R) : RTree K V R :=
  .node p k v (recomputedOf S k v l r) l r

variable [LinearOrder K]

/-- Mirror of `ReducerNode::Find`: BST descent returning the key, value
and cached reduced value of the matching node. -/
def Find : RTree K V R → K → Option (K × V × R)
  | .nil, _ => none
  | .node _ k v red l r, key =>
    if key < k then Find l key
    else if k < key then Find r key
    else some (k, v, red)

/-- Mirror of `ReducerNode::Split`: partition a subtree by a key,
recomputing reductions along the touched spine (via
`SetLeftAndUpdateReduced` / `SetRightAndUpdateReduced`).  The branch in
which the split key equals the node's key is `assert(false)` in the
source and is modelled as `none`. -/
def Split (S : ReducerSpec K V R) : RTree K V R → K → Option (RTree K V R × RTree K V R)
  | .nil, _ => some (.nil, .nil)
  | .node p k v _ l r, key =>
    if key < k then
      match Split S l key with
      | none => none
      | some (sl, sr) => some (sl, mkNode S p k v sr r)
    else if k < key then
      match Split S r key with
      | none => none
      | some (sl, sr) => some (mkNode S p k v l sl, sr)
    else none

/-- Number of nodes of a subtree (the count returned by
`ReducerNode::Validate`). -/
def count : RTree K V R → Nat
  | .nil => 0
  | .node _ _ _ _ l r => 1 + count l + count r

/-- Mirror of `ReducerNode::Merge`: join two subtrees, all keys of the
first below all keys of the second, choosing the higher-priority root
(the second tree's root on ties) and recomputing the reduction of every
node whose child was replaced. -/
def Merge (S : ReducerSpec K V R) : RTree K V R → RTree K V R → RTree K V R
  | .nil, b => b
  | a, .nil => a
  | .node pa ka va ra la rA, .node pb kb vb rb lb rB =>
    if pa > pb then
      mkNode S pa ka va la (Merge S rA (.node pb kb vb rb lb rB))
    else
      mkNode S pb kb vb (Merge S (.node pa ka va ra la rA) lb) rB
termination_by a b => count a + count b
decreasing_by
  all_goals simp [count]
  all_goals omega

/-- Mirror of `ReducerNode::Insert`.  The freshly constructed node is
given by its priority `p`, key `k`, value `v` and the arbitrary content
`r0` of its uninitialised `_reduced` field; its children are null by
construction, so the two child asserts of the base case hold.  The
duplicate-key `assert(false)` in the descend branch is modelled as
`none`, and a `none` from the recursive call or from `Split`
propagates. -/
def NodeInsert (S : ReducerSpec K V R) :
    RTree K V R → Nat → K → V → R → Option (RTree K V R)
  | .nil, p, k, v, _ => some (mkNode S p k v .nil .nil)
  | .node rp rk rv rred l r, p, k, v, r0 =>
    if p < rp then
      if k < rk then
        match NodeInsert S l p k v r0 with
        | none => none
        | some nl => some (mkNode S rp rk rv nl r)
      else if rk < k then
        match NodeInsert S r p k v r0 with
        | none => none
        | some nr => some (mkNode S rp rk rv l nr)
      else none
    else
      match Split S (.node rp rk rv rred l r) k with
      | none => none
      | some (sl, sr) => some (mkNode S p k v sl sr)

/-- Mirror of `ReducerNode::Erase`: returns the new subtree and the
`erased` flag. -/
def NodeErase (S : ReducerSpec K V R) : RTree K V R → K → RTree K V R × Bool
  | .nil, _ => (.nil, false)
  | .node p k v _ l r, key =>
    if key < k then
      let res := NodeErase S l key
      (mkNode S p k v res.1 r, res.2)
    else if k < key then
      let res := NodeErase S r key
      (mkNode S p k v l res.1, res.2)
    else
      (Merge S l r, true)

/-- Mirror of `ReducerNode::PrefixLt`: the reduction of all entries with
key strictly below `key`, using cached subtree reductions. -/
def PrefixLt (S : ReducerSpec K V R) : RTree K V R → K → R
  | .nil, _ => S.default
  | .node _ k v _ l r, key =>
    if key < k then PrefixLt S l key
    else if key = k then Reduce S l
    else S.add (S.add (Reduce S l) (S.seed k v)) (PrefixLt S r key)

/-- Mirror of `ReducerNode::ForAll`: in-order traversal applying `f` to
key, value and the node's cached reduced value, stopping at the first
`false`. -/
def ForAll : RTree K V R → (K → V → R → Bool) → Bool
  | .nil, _ => true
  | .node _ k v red l r, f => ForAll l f && (f k v red && ForAll r f)

/-- Instrumented version of `ForAll` following the same control flow but
also recording, in order, every call made to `f` (each with the exact
arguments passed).  Used to state the visit-order and short-circuit
properties. -/
def ForAllCalls : RTree K V R → (K → V → R → Bool) → Bool × List (K × V × R)
  | .nil, _ => (true, [])
  | .node _ k v red l r, f =>
    let resL := ForAllCalls l f
    if resL.1 then
      if f k v red then
        let resR := ForAllCalls r f
        (resR.1, resL.2 ++ (k, v, red) :: resR.2)
      else (false, resL.2 ++ [(k, v, red)])
    else (false, resL.2)

/-- Lower-bound check of `ReducerNode::Validate` (`lower_bound` is a
possibly-null pointer, modelled as `Option`). -/
def lbOK (lo : Option K) (k : K) : Bool :=
  match lo with
  | none => true
  | some a => decide (a < k)

/-- Upper-bound check of `ReducerNode::Validate`. -/
def ubOK (hi : Option K) (k : K) : Bool :=
  match hi with
  | none => true
  | some b => decide (k < b)

/-- The BST-order part of `ReducerNode::Validate`: every key strictly
between the inherited bounds, children checked with the node's key as the
new bound. -/
def bstOK : Option K → Option K → RTree K V R → Bool
  | _, _, .nil => true
  | lo, hi, .node _ k _ _ l r =>
    lbOK lo k && ubOK hi k && bstOK lo (some k) l && bstOK (some k) hi r

/-- The per-child priority check of `ReducerNode::Validate`: a null child
passes, a present child's priority must be at most the parent's. -/
def rootPrioLe : RTree K V R → Nat → Bool
  | .nil, _ => true
  | .node cp _ _ _ _ _, p => decide (cp ≤ p)

/-- The heap-order part of `ReducerNode::Validate`: each present child's
priority is at most the parent's (`_priority >= _left->_priority` and
symmetrically; ties allowed). -/
def heapOK : RTree K V R → Bool
  | .nil => true
  | .node p _ _ _ l r =>
    rootPrioLe l p && rootPrioLe r p && heapOK l && heapOK r

/-- The cached-reduction part of `ReducerNode::Validate`: at every node
the stored `_reduced` equals the recomputed fold of the node and its
children's cached reductions. -/
def reducedOK [DecidableEq R] (S : ReducerSpec K V R) : RTree K V R → Bool
  | .nil => true
  | .node _ k v red l r =>
    decide (red = recomputedOf S k v l r) && reducedOK S l && reducedOK S r

/-- The facade `ReducerTree`: the owned root and the running size
counter.  The random engine is modelled by passing each sampled priority
to `TreeInsert` explicitly. -/
structure TreeState (K V R : Type) where
  root : RTree K V R
  size : Nat
  deriving DecidableEq

/-- Mirror of `ReducerTree::Insert`: if `Find` hits, return `false` with
no mutation; otherwise build a fresh node (sampled priority `p`,
uninitialised reduced field `r0`), insert it, increment `_size` and
return `true`. -/
def TreeInsert (S : ReducerSpec K V R) (t : TreeState K V R)
    (p : Nat) (k : K) (v : V) (r0 : R) : Option (TreeState K V R × Bool) :=
  if (Find t.root k).isSome then some (t, false)
  else
    match NodeInsert S t.root p k v r0 with
    | none => none
    | some nr => some (⟨nr, t.size + 1⟩, true)

/-- Mirror of `ReducerTree::Erase`: delegate, and decrement `_size`
exactly when a node was erased. -/
def TreeErase (S : ReducerSpec K V R) (t : TreeState K V R) (k : K) :
    TreeState K V R × Bool :=
  let res := NodeErase S t.root k
  (⟨res.1, if res.2 then t.size - 1 else t.size⟩, res.2)

/-- Mirror of `ReducerTree::Find`. -/
def TreeFind (t : TreeState K V R) (k : K) : Option (K × V × R) :=
  Find t.root k

/-- Mirror of `ReducerTree::PrefixLt`. -/
def TreePrefixLt (S : ReducerSpec K V R) (t : TreeState K V R) (k : K) : R :=
  PrefixLt S t.root k

/-- Mirror of `ReducerTree::ForAll`: `true` on the empty tree, else
delegate to the root node. -/
def TreeForAll (t : TreeState K V R) (f : K → V → R → Bool) : Bool :=
  match t.root with
  | .nil => true
  | .node p k v red l r => ForAll (.node p k v red l r) f

/-- States reachable from a default-constructed tree by the mutating
public operations, each `Insert` with an arbitrary sampled priority and
arbitrary uninitialised reduced field.  The remaining public operations
(`Find`, `PrefixLt`, `ForAll`, `Size`, `Empty`) are `const` and do not
change the state. -/
inductive Reachable (S : ReducerSpec K V R) : TreeState K V R → Prop where
  | empty : Reachable S ⟨.nil, 0⟩
  | insertStep {t t' : TreeState K V R} {p : Nat} {k : K} {v : V} {r0 : R} {b : Bool} :
      Reachable S t → TreeInsert S t p k v r0 = some (t', b) → Reachable S t'
  | eraseStep {t t' : TreeState K V R} {k : K} {b : Bool} :
      Reachable S t → TreeErase S t k = (t', b) → Reachable S t'

/-- In-order list of the entries of a subtree (specification side). -/
def entries : RTree K V R → List (K × V)
  | .nil => []
  | .node _ k v _ l r => entries l ++ (k, v) :: entries r

/-- In-order list of (key, value, cached reduced) of a subtree
(specification side). -/
def triples : RTree K V R → List (K × V × R)
  | .nil => []
  | .node _ k v red l r => triples l ++ (k, v, red) :: triples r

/-- In-order list of the keys of a subtree. -/
def keysOf (t : RTree K V R) : List K := (entries t).map Prod.fst

/-- Specification-side left fold of the seeds of a list of entries, in
list order, starting from the default element. -/
def foldSeeds (S : ReducerSpec K V R) (es : List (K × V)) : R :=
  es.foldl (fun acc e => S.add acc (S.seed e.1 e.2)) S.default

/-- The monoid laws of the reducer type contract: the combine is
associative and the default element is its two-sided identity. -/
structure LawfulReducer (S : ReducerSpec K V R) : Prop where
  add_assoc : ∀ a b c : R, S.add (S.add a b) c = S.add a (S.add b c)
  default_add : ∀ a : R, S.add S.default a = a
  add_default : ∀ a : R, S.add a S.default = a

/-- Specification-side sequence of calls a short-circuiting in-order
traversal makes on a list of triples: every triple up to and including
the first one on which `f` answers `false`. -/
def callsUpTo (f : K → V → R → Bool) : List (K × V × R) → List (K × V × R)
  | [] => []
  | e :: rest => if f e.1 e.2.1 e.2.2 then e :: callsUpTo f rest else [e]

/-- Subtree relation on `RTree` (reflexive, descending through either
child). -/
inductive IsSubtree : RTree K V R → RTree K V R → Prop where
  | refl (t : RTree K V R) : IsSubtree t t
  | inLeft {s : RTree K V R} (p : Nat) (k : K) (v : V) (red : R)
      {l : RTree K V R} (r : RTree K V R) :
      IsSubtree s l → IsSubtree s (.node p k v red l r)
  | inRight {s : RTree K V R} (p : Nat) (k : K) (v : V) (red : R)
      (l : RTree K V R) {r : RTree K V R} :
      IsSubtree s r → IsSubtree s (.node p k v red l r)

/-- Priority and key of the root of a subtree, if any. -/
def rootInfo : RTree K V R → Option (Nat × K)
  | .nil => none
  | .node p k _ _ _ _ => some (p, k)

/-- Every priority in the subtree is at most `b` (proof-side bound used
to propagate heap order through `Split`, `Merge` and `Insert`). -/
def prioLe : RTree K V R → Nat → Prop
  | .nil, _ => True
  | .node p _ _ _ l r, b => p ≤ b ∧ prioLe l b ∧ prioLe r b

/-- Concrete reducer instance used for witnesses: keys and values are
natural numbers and the reducer is the free monoid of entry lists, which
is sensitive to both the order and the multiplicity of combines. -/
def S0 : ReducerSpec Nat Nat (List (Nat × Nat)) :=
  { default := [], seed := fun k v => [(k, v)], add := fun a b => a ++ b }

/-- The default-constructed facade state. -/
def s0 : TreeState Nat Nat (List (Nat × Nat)) := ⟨.nil, 0⟩

/-- State after inserting key 10 (priority 3, value 0) into `s0`. -/
def s1 : TreeState Nat Nat (List (Nat × Nat)) :=
  ⟨.node 3 10 0 [(10, 0)] .nil .nil, 1⟩

/-- State after inserting key 5 (priority 2, value 1) into `s1`. -/
def s2 : TreeState Nat Nat (List (Nat × Nat)) :=
  ⟨.node 3 10 0 [(5, 1), (10, 0)] (.node 2 5 1 [(5, 1)] .nil .nil) .nil, 2⟩

/-- State after inserting key 20 (priority 1, value 2) into `s2`. -/
def s3 : TreeState Nat Nat (List (Nat × Nat)) :=
  ⟨.node 3 10 0 [(5, 1), (10, 0), (20, 2)]
    (.node 2 5 1 [(5, 1)] .nil .nil) (.node 1 20 2 [(20, 2)] .nil .nil), 3⟩

theorem entries_mkNode (S : ReducerSpec K V R) (p : Nat) (k : K) (v : V)
    (l r : RTree K V R) :
    entries (mkNode S p k v l r) = entries l ++ (k, v) :: entries r := rfl

theorem keysOf_nil : keysOf (.nil : RTree K V R) = [] := rfl

theorem keysOf_node (p : Nat) (k : K) (v : V) (red : R) (l r : RTree K V R) :
    keysOf (.node p k v red l r) = keysOf l ++ k :: keysOf r := by
  simp [keysOf, entries]

theorem keysOf_mkNode (S : ReducerSpec K V R) (p : Nat) (k : K) (v : V)
    (l r : RTree K V R) :
    keysOf (mkNode S p k v l r) = keysOf l ++ k :: keysOf r := keysOf_node ..

theorem ubOK_of_lt {hi : Option K} {x k : K} (hxk : x < k) (h : ubOK hi k = true) :
    ubOK hi x = true := by
  cases hi with
  | none => rfl
  | some b =>
    simp only [ubOK, decide_eq_true_eq] at h ⊢
    exact lt_trans hxk h

theorem lbOK_of_lt {lo : Option K} {x k : K} (hkx : k < x) (h : lbOK lo k = true) :
    lbOK lo x = true := by
  cases lo with
  | none => rfl
  | some a =>
    simp only [lbOK, decide_eq_true_eq] at h ⊢
    exact lt_trans h hkx

theorem bstOK_keys_bounds {t : RTree K V R} :
    ∀ {lo hi : Option K}, bstOK lo hi t = true →
      ∀ x ∈ keysOf t, lbOK lo x = true ∧ ubOK hi x = true := by
  induction t with
  | nil => intro lo hi _ x hx; simp [keysOf, entries] at hx
  | node p k v red l r ihl ihr =>
    intro lo hi h x hx
    simp only [bstOK, Bool.and_eq_true] at h
    obtain ⟨⟨⟨hlb, hub⟩, hl⟩, hr⟩ := h
    rw [keysOf_node] at hx
    simp only [List.mem_append, List.mem_cons] at hx
    rcases hx with hx | rfl | hx
    · obtain ⟨h1, h2⟩ := ihl hl x hx
      have hxk : x < k := by simpa [ubOK] using h2
      exact ⟨h1, ubOK_of_lt hxk hub⟩
    · exact ⟨hlb, hub⟩
    · obtain ⟨h1, h2⟩ := ihr hr x hx
      have hkx : k < x := by simpa [lbOK] using h1
      exact ⟨lbOK_of_lt hkx hlb, h2⟩

theorem bstOK_pairwise {t : RTree K V R} :
    ∀ {lo hi : Option K}, bstOK lo hi t = true → (keysOf t).Pairwise (· < ·) := by
  induction t with
  | nil => intro lo hi _; simp [keysOf, entries]
  | node p k v red l r ihl ihr =>
    intro lo hi h
    simp only [bstOK, Bool.and_eq_true] at h
    obtain ⟨⟨⟨hlb, hub⟩, hl⟩, hr⟩ := h
    rw [keysOf_node]
    apply List.pairwise_append.mpr
    refine ⟨ihl hl, List.pairwise_cons.mpr ⟨?_, ihr hr⟩, ?_⟩
    · intro y hy
      have := (bstOK_keys_bounds hr y hy).1
      simpa [lbOK] using this
    · intro x hx y hy
      have hxk : x < k := by simpa [ubOK] using (bstOK_keys_bounds hl x hx).2
      rcases List.mem_cons.mp hy with rfl | hy
      · exact hxk
      · have hky : k < y := by simpa [lbOK] using (bstOK_keys_bounds hr y hy).1
        exact lt_trans hxk hky

theorem bstOK_mono {t : RTree K V R} :
    ∀ {lo hi lo' hi' : Option K},
      (∀ x, lbOK lo x = true → lbOK lo' x = true) →
      (∀ x, ubOK hi x = true → ubOK hi' x = true) →
      bstOK lo hi t = true → bstOK lo' hi' t = true := by
  induction t with
  | nil => intros; rfl
  | node p k v red l r ihl ihr =>
    intro lo hi lo' hi' hlo hhi h
    simp only [bstOK, Bool.and_eq_true] at h ⊢
    obtain ⟨⟨⟨hlb, hub⟩, hl⟩, hr⟩ := h
    exact ⟨⟨⟨hlo _ hlb, hhi _ hub⟩, ihl hlo (fun x hx => hx) hl⟩,
      ihr (fun x hx => hx) hhi hr⟩

theorem bstOK_strengthen_lo {t : RTree K V R} :
    ∀ {lo hi : Option K} {m : K}, bstOK lo hi t = true →
      (∀ x ∈ keysOf t, m < x) → bstOK (some m) hi t = true := by
  induction t with
  | nil => intros; rfl
  | node p k v red l r ihl ihr =>
    intro lo hi m h hm
    simp only [bstOK, Bool.and_eq_true] at h ⊢
    obtain ⟨⟨⟨hlb, hub⟩, hl⟩, hr⟩ := h
    refine ⟨⟨⟨?_, hub⟩, ?_⟩, hr⟩
    · simp only [lbOK, decide_eq_true_eq]
      exact hm k (by rw [keysOf_node]; simp)
    · exact ihl hl (fun x hx => hm x (by rw [keysOf_node]; simp [hx]))

theorem bstOK_strengthen_hi {t : RTree K V R} :
    ∀ {lo hi : Option K} {m : K}, bstOK lo hi t = true →
      (∀ x ∈ keysOf t, x < m) → bstOK lo (some m) t = true := by
  induction t with
  | nil => intros; rfl
  | node p k v red l r ihl ihr =>
    intro lo hi m h hm
    simp only [bstOK, Bool.and_eq_true] at h ⊢
    obtain ⟨⟨⟨hlb, hub⟩, hl⟩, hr⟩ := h
    refine ⟨⟨⟨hlb, ?_⟩, hl⟩, ?_⟩
    · simp only [ubOK, decide_eq_true_eq]
      exact hm k (by rw [keysOf_node]; simp)
    · exact ihr hr (fun x hx => hm x (by rw [keysOf_node]; simp [hx]))

theorem foldl_add_eq {S : ReducerSpec K V R} (hS : LawfulReducer S)
    (es : List (K × V)) (a : R) :
    es.foldl (fun acc e => S.add acc (S.seed e.1 e.2)) a = S.add a (foldSeeds S es) := by
  induction es generalizing a with
  | nil => simp [foldSeeds, hS.add_default]
  | cons e es ih =>
    have h1 : foldSeeds S (e :: es) = S.add (S.seed e.1 e.2) (foldSeeds S es) := by
      simp only [foldSeeds, List.foldl_cons]
      rw [ih, hS.default_add]
      rfl
    simp only [List.foldl_cons]
    rw [ih, h1, hS.add_assoc]

theorem foldSeeds_cons {S : ReducerSpec K V R} (hS : LawfulReducer S)
    (e : K × V) (es : List (K × V)) :
    foldSeeds S (e :: es) = S.add (S.seed e.1 e.2) (foldSeeds S es) := by
  simp only [foldSeeds, List.foldl_cons]
  rw [foldl_add_eq hS, hS.default_add]
  rfl

theorem foldSeeds_append {S : ReducerSpec K V R} (hS : LawfulReducer S)
    (xs ys : List (K × V)) :
    foldSeeds S (xs ++ ys) = S.add (foldSeeds S xs) (foldSeeds S ys) := by
  simp only [foldSeeds, List.foldl_append]
  rw [foldl_add_eq hS]
  rfl

theorem recomputedOf_eq {S : ReducerSpec K V R} (hS : LawfulReducer S)
    (k : K) (v : V) (l r : RTree K V R) :
    recomputedOf S k v l r = S.add (S.add (Reduce S l) (S.seed k v)) (Reduce S r) := by
  cases l <;> cases r <;>
    simp [recomputedOf, Reduce, hS.default_add, hS.add_default]

theorem reduce_eq_fold {S : ReducerSpec K V R} [DecidableEq R] (hS : LawfulReducer S)
    {t : RTree K V R} (h : reducedOK S t = true) :
    Reduce S t = foldSeeds S (entries t) := by
  induction t with
  | nil => simp [Reduce, entries, foldSeeds]
  | node p k v red l r ihl ihr =>
    simp only [reducedOK, Bool.and_eq_true, decide_eq_true_eq] at h
    obtain ⟨⟨hred, hl⟩, hr⟩ := h
    simp only [Reduce, entries]
    rw [hred, recomputedOf_eq hS, ihl hl, ihr hr, foldSeeds_append hS,
      foldSeeds_cons hS, ← hS.add_assoc]

theorem find_isSome_iff {t : RTree K V R} :
    ∀ {lo hi : Option K}, bstOK lo hi t = true →
      ∀ key : K, ((Find t key).isSome = true ↔ key ∈ keysOf t) := by
  induction t with
  | nil => intro lo hi _ key; simp [Find, keysOf, entries]
  | node p k v red l r ihl ihr =>
    intro lo hi h key
    simp only [bstOK, Bool.and_eq_true] at h
    obtain ⟨⟨⟨hlb, hub⟩, hl⟩, hr⟩ := h
    rw [keysOf_node]
    simp only [Find, List.mem_append, List.mem_cons]
    by_cases h1 : key < k
    · simp only [if_pos h1]
      rw [ihl hl key]
      constructor
      · exact fun hx => Or.inl hx
      · rintro (hx | rfl | hx)
        · exact hx
        · exact absurd h1 (lt_irrefl key)
        · have hk : k < key := by simpa [lbOK] using (bstOK_keys_bounds hr key hx).1
          exact absurd hk (lt_asymm h1)
    · by_cases h2 : k < key
      · simp only [if_neg h1, if_pos h2]
        rw [ihr hr key]
        constructor
        · exact fun hx => Or.inr (Or.inr hx)
        · rintro (hx | rfl | hx)
          · have hk : key < k := by simpa [ubOK] using (bstOK_keys_bounds hl key hx).2
            exact absurd hk h1
          · exact absurd h2 (lt_irrefl key)
          · exact hx
      · have hkey : key = k := le_antisymm (not_lt.mp h2) (not_lt.mp h1)
        subst hkey
        simp [if_neg h1, if_neg h2]

theorem key_mem_keysOf {t : RTree K V R} {e : K × V} (he : e ∈ entries t) :
    e.1 ∈ keysOf t := List.mem_map_of_mem Prod.fst he

theorem prioLe_mono {t : RTree K V R} :
    ∀ {b b' : Nat}, prioLe t b → b ≤ b' → prioLe t b' := by
  induction t with
  | nil => intros; trivial
  | node p k v red l r ihl ihr =>
    intro b b' h hb
    obtain ⟨h1, h2, h3⟩ := h
    exact ⟨le_trans h1 hb, ihl h2 hb, ihr h3 hb⟩

theorem rootPrioLe_mono {t : RTree K V R} {b b' : Nat}
    (h : rootPrioLe t b = true) (hb : b ≤ b') : rootPrioLe t b' = true := by
  cases t with
  | nil => rfl
  | node p k v red l r =>
    simp only [rootPrioLe, decide_eq_true_eq] at h ⊢
    exact le_trans h hb

theorem rootPrioLe_of_prioLe {t : RTree K V R} {b : Nat} (h : prioLe t b) :
    rootPrioLe t b = true := by
  cases t with
  | nil => rfl
  | node p k v red l r =>
    simp only [rootPrioLe, decide_eq_true_eq]
    exact h.1

theorem heapOK_prioLe {t : RTree K V R} :
    ∀ {b : Nat}, heapOK t = true → rootPrioLe t b = true → prioLe t b := by
  induction t with
  | nil => intros; trivial
  | node p k v red l r ihl ihr =>
    intro b h hroot
    simp only [heapOK, Bool.and_eq_true] at h
    obtain ⟨⟨⟨hrl, hrr⟩, hl⟩, hr⟩ := h
    simp only [rootPrioLe, decide_eq_true_eq] at hroot
    exact ⟨hroot, ihl hl (rootPrioLe_mono hrl hroot),
      ihr hr (rootPrioLe_mono hrr hroot)⟩

theorem heapOK_node_prioLe {p : Nat} {k : K} {v : V} {red : R} {l r : RTree K V R}
    (h : heapOK (.node p k v red l r) = true) :
    prioLe (.node p k v red l r : RTree K V R) p :=
  heapOK_prioLe h (by simp [rootPrioLe])

theorem reducedOK_mkNode [DecidableEq R] (S : ReducerSpec K V R) (p : Nat) (k : K)
    (v : V) (l r : RTree K V R) :
    reducedOK S (mkNode S p k v l r) = (reducedOK S l && reducedOK S r) := by
  simp [mkNode, reducedOK]

theorem heapOK_mkNode (S : ReducerSpec K V R) (p : Nat) (k : K) (v : V)
    (l r : RTree K V R) :
    heapOK (mkNode S p k v l r) =
      (rootPrioLe l p && rootPrioLe r p && heapOK l && heapOK r) := rfl

theorem bstOK_mkNode (S : ReducerSpec K V R) (lo hi : Option K) (p : Nat) (k : K)
    (v : V) (l r : RTree K V R) :
    bstOK lo hi (mkNode S p k v l r) =
      (lbOK lo k && ubOK hi k && bstOK lo (some k) l && bstOK (some k) hi r) := rfl

theorem count_mkNode (S : ReducerSpec K V R) (p : Nat) (k : K) (v : V)
    (l r : RTree K V R) :
    count (mkNode S p k v l r) = 1 + count l + count r := rfl

theorem split_spec (S : ReducerSpec K V R) {t : RTree K V R} :
    ∀ {lo hi : Option K} {key : K}, bstOK lo hi t = true → key ∉ keysOf t →
      ∃ sl sr, Split S t key = some (sl, sr) ∧
        entries sl = (entries t).filter (fun e => decide (e.1 < key)) ∧
        entries sr = (entries t).filter (fun e => decide (key < e.1)) ∧
        count sl + count sr = count t := by
  induction t with
  | nil =>
    intro lo hi key _ _
    exact ⟨.nil, .nil, rfl, by simp [entries], by simp [entries], rfl⟩
  | node p k v red l r ihl ihr =>
    intro lo hi key hb hk
    simp only [bstOK, Bool.and_eq_true] at hb
    obtain ⟨⟨⟨hlb, hub⟩, hbl⟩, hbr⟩ := hb
    have hkneq : key ≠ k := fun h => hk (by rw [keysOf_node]; simp [h])
    have hknl : key ∉ keysOf l := fun h => hk (by rw [keysOf_node]; simp [h])
    have hknr : key ∉ keysOf r := fun h => hk (by rw [keysOf_node]; simp [h])
    rcases lt_trichotomy key k with h1 | h1 | h1
    · obtain ⟨sl, sr, heq, he1, he2, hc⟩ := ihl hbl hknl
      refine ⟨sl, mkNode S p k v sr r, ?_, ?_, ?_, ?_⟩
      · simp [Split, if_pos h1, heq]
      · rw [he1]
        show _ = (entries l ++ (k, v) :: entries r).filter _
        rw [List.filter_append]
        have hnil : ((k, v) :: entries r).filter (fun e => decide (e.1 < key)) = [] := by
          rw [List.filter_eq_nil_iff]
          intro e he
          rcases List.mem_cons.mp he with rfl | he
          · simpa using lt_asymm h1
          · have hke : k < e.1 := by
              simpa [lbOK] using (bstOK_keys_bounds hbr e.1 (key_mem_keysOf he)).1
            simpa using lt_asymm (lt_trans h1 hke)
        rw [hnil, List.append_nil]
      · rw [entries_mkNode, he2]
        show _ = (entries l ++ (k, v) :: entries r).filter _
        rw [List.filter_append]
        have hcons : ((k, v) :: entries r).filter (fun e => decide (key < e.1)) =
            (k, v) :: entries r := by
          rw [List.filter_eq_self]
          intro e he
          rcases List.mem_cons.mp he with rfl | he
          · simpa using h1
          · have hke : k < e.1 := by
              simpa [lbOK] using (bstOK_keys_bounds hbr e.1 (key_mem_keysOf he)).1
            simpa using lt_trans h1 hke
        rw [hcons]
      · rw [count_mkNode]
        show _ = 1 + count l + count r
        omega
    · exact absurd h1 hkneq
    · obtain ⟨sl, sr, heq, he1, he2, hc⟩ := ihr hbr hknr
      refine ⟨mkNode S p k v l sl, sr, ?_, ?_, ?_, ?_⟩
      · have hnk : ¬ key < k := lt_asymm h1
        simp [Split, if_neg hnk, if_pos h1, heq]
      · rw [entries_mkNode, he1]
        show _ = (entries l ++ (k, v) :: entries r).filter _
        rw [List.filter_append]
        have hself : (entries l).filter (fun e => decide (e.1 < key)) = entries l := by
          rw [List.filter_eq_self]
          intro e he
          have hek : e.1 < k := by
            simpa [ubOK] using (bstOK_keys_bounds hbl e.1 (key_mem_keysOf he)).2
          simpa using lt_trans hek h1
        rw [hself, List.filter_cons_of_pos (by simpa using h1)]
      · rw [he2]
        show _ = (entries l ++ (k, v) :: entries r).filter _
        rw [List.filter_append]
        have hnil : (entries l).filter (fun e => decide (key < e.1)) = [] := by
          rw [List.filter_eq_nil_iff]
          intro e he
          have hek : e.1 < k := by
            simpa [ubOK] using (bstOK_keys_bounds hbl e.1 (key_mem_keysOf he)).2
          simpa using lt_asymm (lt_trans hek h1)
        rw [hnil, List.filter_cons_of_neg (by simpa using lt_asymm h1)]
        rfl
      · rw [count_mkNode]
        show _ = 1 + count l + count r
        omega

theorem split_invariants (S : ReducerSpec K V R) [DecidableEq R] {t : RTree K V R} :
    ∀ {key : K} {sl sr : RTree K V R} {lo hi : Option K} {b : Nat},
      Split S t key = some (sl, sr) → bstOK lo hi t = true → heapOK t = true →
      reducedOK S t = true → prioLe t b →
      bstOK lo (some key) sl = true ∧ bstOK (some key) hi sr = true ∧
      heapOK sl = true ∧ heapOK sr = true ∧
      reducedOK S sl = true ∧ reducedOK S sr = true ∧
      prioLe sl b ∧ prioLe sr b := by
  induction t with
  | nil =>
    intro key sl sr lo hi b heq _ _ _ _
    simp only [Split, Option.some.injEq, Prod.mk.injEq] at heq
    obtain ⟨h1, h2⟩ := heq
    subst h1; subst h2
    simp [bstOK, heapOK, reducedOK, prioLe]
  | node p k v red l r ihl ihr =>
    intro key sl sr lo hi b heq hb hh hrd hp
    simp only [bstOK, Bool.and_eq_true] at hb
    obtain ⟨⟨⟨hlb, hub⟩, hbl⟩, hbr⟩ := hb
    simp only [heapOK, Bool.and_eq_true] at hh
    obtain ⟨⟨⟨hpl, hpr⟩, hhl⟩, hhr⟩ := hh
    simp only [reducedOK, Bool.and_eq_true, decide_eq_true_eq] at hrd
    obtain ⟨⟨hred, hrl⟩, hrr⟩ := hrd
    obtain ⟨hpb, hplb, hprb⟩ := hp
    by_cases h1 : key < k
    · rw [Split] at heq
      rw [if_pos h1] at heq
      cases hsl : Split S l key with
      | none => rw [hsl] at heq; exact absurd heq (by simp)
      | some pr2 =>
        obtain ⟨a, b2⟩ := pr2
        rw [hsl] at heq
        simp only [Option.some.injEq, Prod.mk.injEq] at heq
        obtain ⟨h2, h3⟩ := heq
        subst h2; subst h3
        obtain ⟨q1, q2, q3, q4, q5, q6, q7, q8⟩ :=
          ihl hsl hbl hhl hrl hplb
        obtain ⟨w1, w2, w3, w4, w5, w6, w7, w8⟩ :=
          ihl hsl hbl hhl hrl (heapOK_prioLe hhl hpl)
        refine ⟨q1, ?_, q3, ?_, q5, ?_, q7, ?_⟩
        · rw [bstOK_mkNode]
          simp only [Bool.and_eq_true]
          refine ⟨⟨⟨?_, hub⟩, q2⟩, hbr⟩
          simpa [lbOK] using h1
        · rw [heapOK_mkNode]
          simp only [Bool.and_eq_true]
          exact ⟨⟨⟨rootPrioLe_of_prioLe w8, hpr⟩, q4⟩, hhr⟩
        · rw [reducedOK_mkNode]
          simp only [Bool.and_eq_true]
          exact ⟨q6, hrr⟩
        · exact ⟨hpb, q8, hprb⟩
    · by_cases h2 : k < key
      · rw [Split] at heq
        rw [if_neg h1, if_pos h2] at heq
        cases hsr : Split S r key with
        | none => rw [hsr] at heq; exact absurd heq (by simp)
        | some pr2 =>
          obtain ⟨a, b2⟩ := pr2
          rw [hsr] at heq
          simp only [Option.some.injEq, Prod.mk.injEq] at heq
          obtain ⟨h3, h4⟩ := heq
          subst h3; subst h4
          obtain ⟨q1, q2, q3, q4, q5, q6, q7, q8⟩ :=
            ihr hsr hbr hhr hrr hprb
          obtain ⟨w1, w2, w3, w4, w5, w6, w7, w8⟩ :=
            ihr hsr hbr hhr hrr (heapOK_prioLe hhr hpr)
          refine ⟨?_, q2, ?_, q4, ?_, q6, ?_, q8⟩
          · rw [bstOK_mkNode]
            simp only [Bool.and_eq_true]
            refine ⟨⟨⟨hlb, ?_⟩, hbl⟩, q1⟩
            simpa [ubOK] using h2
          · rw [heapOK_mkNode]
            simp only [Bool.and_eq_true]
            exact ⟨⟨⟨hpl, rootPrioLe_of_prioLe w7⟩, hhl⟩, q3⟩
          · rw [reducedOK_mkNode]
            simp only [Bool.and_eq_true]
            exact ⟨hrl, q5⟩
          · exact ⟨hpb, hplb, q7⟩
      · rw [Split] at heq
        rw [if_neg h1, if_neg h2] at heq
        exact absurd heq (by simp)

theorem mem_keysOf_left {p : Nat} {k : K} {v : V} {red : R} {l r : RTree K V R}
    {x : K} (hx : x ∈ keysOf l) : x ∈ keysOf (.node p k v red l r : RTree K V R) := by
  rw [keysOf_node]; simp [hx]

theorem mem_keysOf_right {p : Nat} {k : K} {v : V} {red : R} {l r : RTree K V R}
    {x : K} (hx : x ∈ keysOf r) : x ∈ keysOf (.node p k v red l r : RTree K V R) := by
  rw [keysOf_node]; simp [hx]

theorem mem_keysOf_root {p : Nat} {k : K} {v : V} {red : R} {l r : RTree K V R} :
    k ∈ keysOf (.node p k v red l r : RTree K V R) := by
  rw [keysOf_node]; simp

theorem merge_entries (S : ReducerSpec K V R) (a b : RTree K V R) :
    entries (Merge S a b) = entries a ++ entries b := by
  induction a, b using Merge.induct S with
  | case1 b => simp [Merge, entries]
  | case2 a _ => cases a <;> simp [Merge, entries]
  | case3 pa ka va ra la rA pb kb vb rb lb rB h ih =>
    rw [Merge, if_pos h]
    simp [entries_mkNode, entries, ih]
  | case4 pa ka va ra la rA pb kb vb rb lb rB h ih =>
    rw [Merge, if_neg h]
    simp [entries_mkNode, entries, ih]

theorem merge_count (S : ReducerSpec K V R) (a b : RTree K V R) :
    count (Merge S a b) = count a + count b := by
  induction a, b using Merge.induct S with
  | case1 b => simp [Merge, count]
  | case2 a _ => cases a <;> simp [Merge, count]
  | case3 pa ka va ra la rA pb kb vb rb lb rB h ih =>
    rw [Merge, if_pos h]
    simp only [count_mkNode, ih]
    show _ = 1 + count la + count rA + _
    simp [count]
    omega
  | case4 pa ka va ra la rA pb kb vb rb lb rB h ih =>
    rw [Merge, if_neg h]
    simp only [count_mkNode, ih]
    show _ = _ + (1 + count lb + count rB)
    simp [count]
    omega

theorem merge_prioLe (S : ReducerSpec K V R) {a b : RTree K V R} :
    ∀ {c : Nat}, prioLe a c → prioLe b c → prioLe (Merge S a b) c := by
  induction a, b using Merge.induct S with
  | case1 b => intro c _ hb; simpa [Merge] using hb
  | case2 a _ => intro c ha _; cases a <;> simpa [Merge] using ha
  | case3 pa ka va ra la rA pb kb vb rb lb rB h ih =>
    intro c ha hb
    rw [Merge, if_pos h]
    exact ⟨ha.1, ha.2.1, ih ha.2.2 hb⟩
  | case4 pa ka va ra la rA pb kb vb rb lb rB h ih =>
    intro c ha hb
    rw [Merge, if_neg h]
    exact ⟨hb.1, ih ha hb.2.1, hb.2.2⟩

theorem merge_heapOK (S : ReducerSpec K V R) {a b : RTree K V R} :
    heapOK a = true → heapOK b = true → heapOK (Merge S a b) = true := by
  induction a, b using Merge.induct S with
  | case1 b => intro _ hb; simpa [Merge] using hb
  | case2 a _ => intro ha _; cases a <;> simpa [Merge] using ha
  | case3 pa ka va ra la rA pb kb vb rb lb rB h ih =>
    intro ha hb
    have hpa := heapOK_node_prioLe ha
    have hpb := heapOK_node_prioLe hb
    simp only [heapOK, Bool.and_eq_true] at ha
    obtain ⟨⟨⟨hrl, hrr⟩, hhl⟩, hhr⟩ := ha
    rw [Merge, if_pos h, heapOK_mkNode]
    simp only [Bool.and_eq_true]
    refine ⟨⟨⟨hrl, ?_⟩, hhl⟩, ih hhr hb⟩
    · exact rootPrioLe_of_prioLe
        (merge_prioLe S hpa.2.2 (prioLe_mono hpb (le_of_lt h)))
  | case4 pa ka va ra la rA pb kb vb rb lb rB h ih =>
    intro ha hb
    have hpa := heapOK_node_prioLe ha
    have hpb := heapOK_node_prioLe hb
    simp only [heapOK, Bool.and_eq_true] at hb
    obtain ⟨⟨⟨hrl, hrr⟩, hhl⟩, hhr⟩ := hb
    rw [Merge, if_neg h, heapOK_mkNode]
    simp only [Bool.and_eq_true]
    refine ⟨⟨⟨?_, hrr⟩, ih ha hhl⟩, hhr⟩
    · exact rootPrioLe_of_prioLe
        (merge_prioLe S (prioLe_mono hpa (not_lt.mp h)) hpb.2.1)

theorem merge_reducedOK (S : ReducerSpec K V R) [DecidableEq R] {a b : RTree K V R} :
    reducedOK S a = true → reducedOK S b = true → reducedOK S (Merge S a b) = true := by
  induction a, b using Merge.induct S with
  | case1 b => intro _ hb; simpa [Merge] using hb
  | case2 a _ => intro ha _; cases a <;> simpa [Merge] using ha
  | case3 pa ka va ra la rA pb kb vb rb lb rB h ih =>
    intro ha hb
    simp only [reducedOK, Bool.and_eq_true] at ha
    obtain ⟨⟨_, hrl⟩, hrr⟩ := ha
    rw [Merge, if_pos h, reducedOK_mkNode]
    simp only [Bool.and_eq_true]
    exact ⟨hrl, ih hrr hb⟩
  | case4 pa ka va ra la rA pb kb vb rb lb rB h ih =>
    intro ha hb
    simp only [reducedOK, Bool.and_eq_true] at hb
    obtain ⟨⟨_, hrl⟩, hrr⟩ := hb
    rw [Merge, if_neg h, reducedOK_mkNode]
    simp only [Bool.and_eq_true]
    exact ⟨ih ha hrl, hrr⟩

theorem merge_bstOK (S : ReducerSpec K V R) {a b : RTree K V R} :
    ∀ {lo hi : Option K}, bstOK lo hi a = true → bstOK lo hi b = true →
      (∀ x ∈ keysOf a, ∀ y ∈ keysOf b, x < y) →
      bstOK lo hi (Merge S a b) = true := by
  induction a, b using Merge.induct S with
  | case1 b => intro lo hi _ hb _; simpa [Merge] using hb
  | case2 a _ => intro lo hi ha _ _; cases a <;> simpa [Merge] using ha
  | case3 pa ka va ra la rA pb kb vb rb lb rB h ih =>
    intro lo hi ha hb hcross
    simp only [bstOK, Bool.and_eq_true] at ha
    obtain ⟨⟨⟨hlb, hub⟩, hbl⟩, hbr⟩ := ha
    rw [Merge, if_pos h, bstOK_mkNode]
    simp only [Bool.and_eq_true]
    refine ⟨⟨⟨hlb, hub⟩, hbl⟩, ?_⟩
    apply ih hbr
    · exact bstOK_strengthen_lo hb
        (fun y hy => hcross ka mem_keysOf_root y hy)
    · exact fun x hx y hy => hcross x (mem_keysOf_right hx) y hy
  | case4 pa ka va ra la rA pb kb vb rb lb rB h ih =>
    intro lo hi ha hb hcross
    simp only [bstOK, Bool.and_eq_true] at hb
    obtain ⟨⟨⟨hlb, hub⟩, hbl⟩, hbr⟩ := hb
    rw [Merge, if_neg h, bstOK_mkNode]
    simp only [Bool.and_eq_true]
    refine ⟨⟨⟨hlb, hub⟩, ?_⟩, hbr⟩
    apply ih _ hbl
    · exact fun x hx y hy => hcross x hx y (mem_keysOf_left hy)
    · exact bstOK_strengthen_hi ha
        (fun x hx => hcross x hx kb mem_keysOf_root)

theorem insert_spec (S : ReducerSpec K V R) [DecidableEq R] {t : RTree K V R} :
    ∀ {lo hi : Option K} (p : Nat) (k : K) (v : V) (r0 : R) {b : Nat},
      bstOK lo hi t = true → heapOK t = true → reducedOK S t = true →
      k ∉ keysOf t → lbOK lo k = true → ubOK hi k = true →
      prioLe t b → p ≤ b →
      ∃ t', NodeInsert S t p k v r0 = some t' ∧
        entries t' = (entries t).filter (fun e => decide (e.1 < k)) ++
          (k, v) :: (entries t).filter (fun e => decide (k < e.1)) ∧
        count t' = count t + 1 ∧
        bstOK lo hi t' = true ∧ heapOK t' = true ∧ reducedOK S t' = true ∧
        prioLe t' b := by
  induction t with
  | nil =>
    intro lo hi p k v r0 b _ _ _ _ hlb hub _ hpb
    refine ⟨mkNode S p k v .nil .nil, rfl, by simp [entries, mkNode], rfl, ?_, rfl, ?_, ?_⟩
    · rw [bstOK_mkNode]
      simp [hlb, hub, bstOK]
    · rw [reducedOK_mkNode]
      simp [reducedOK]
    · exact ⟨hpb, trivial, trivial⟩
  | node rp rk rv rred l r ihl ihr =>
    intro lo hi p k v r0 b hb hh hrd hk hlb hub hp hpb
    simp only [bstOK, Bool.and_eq_true] at hb
    obtain ⟨⟨⟨hlb0, hub0⟩, hbl⟩, hbr⟩ := hb
    simp only [heapOK, Bool.and_eq_true] at hh
    obtain ⟨⟨⟨hpl, hpr⟩, hhl⟩, hhr⟩ := hh
    simp only [reducedOK, Bool.and_eq_true, decide_eq_true_eq] at hrd
    obtain ⟨⟨hred, hrl⟩, hrr⟩ := hrd
    obtain ⟨hrpb, hplb, hprb⟩ := hp
    have hkneq : k ≠ rk := fun h => hk (h ▸ mem_keysOf_root)
    have hknl : k ∉ keysOf l := fun h => hk (mem_keysOf_left h)
    have hknr : k ∉ keysOf r := fun h => hk (mem_keysOf_right h)
    by_cases hplt : p < rp
    · rcases lt_trichotomy k rk with h1 | h1 | h1
      · obtain ⟨t1, heq1, hent1, hcnt1, hbst1, hheap1, hred1, hpri1⟩ :=
          @ihl lo (some rk) p k v r0 rp hbl hhl hrl hknl hlb
            (by simpa [ubOK] using h1) (heapOK_prioLe hhl hpl) (le_of_lt hplt)
        have hpri1b : prioLe t1 b := prioLe_mono hpri1 hrpb
        refine ⟨mkNode S rp rk rv t1 r, ?_, ?_, ?_, ?_, ?_, ?_, ?_⟩
        · simp [NodeInsert, if_pos hplt, if_pos h1, heq1]
        · rw [entries_mkNode, hent1]
          show _ = ((entries l ++ (rk, rv) :: entries r).filter _) ++
            (k, v) :: ((entries l ++ (rk, rv) :: entries r).filter _)
          rw [List.filter_append, List.filter_append]
          have hnil : ((rk, rv) :: entries r).filter
              (fun e => decide (e.1 < k)) = [] := by
            rw [List.filter_eq_nil_iff]
            intro e he
            rcases List.mem_cons.mp he with rfl | he
            · simpa using lt_asymm h1
            · have hke : rk < e.1 := by
                simpa [lbOK] using (bstOK_keys_bounds hbr e.1 (key_mem_keysOf he)).1
              simpa using lt_asymm (lt_trans h1 hke)
          have hcons : ((rk, rv) :: entries r).filter
              (fun e => decide (k < e.1)) = (rk, rv) :: entries r := by
            rw [List.filter_eq_self]
            intro e he
            rcases List.mem_cons.mp he with rfl | he
            · simpa using h1
            · have hke : rk < e.1 := by
                simpa [lbOK] using (bstOK_keys_bounds hbr e.1 (key_mem_keysOf he)).1
              simpa using lt_trans h1 hke
          rw [hnil, hcons, List.append_nil]
          simp
        · rw [count_mkNode, hcnt1]
          show _ = 1 + count l + count r + 1
          omega
        · rw [bstOK_mkNode]
          simp only [Bool.and_eq_true]
          exact ⟨⟨⟨hlb0, hub0⟩, hbst1⟩, hbr⟩
        · rw [heapOK_mkNode]
          simp only [Bool.and_eq_true]
          exact ⟨⟨⟨rootPrioLe_of_prioLe hpri1, hpr⟩, hheap1⟩, hhr⟩
        · rw [reducedOK_mkNode]
          simp only [Bool.and_eq_true]
          exact ⟨hred1, hrr⟩
        · exact ⟨hrpb, hpri1b, hprb⟩
      · exact absurd h1 hkneq
      · obtain ⟨t1, heq1, hent1, hcnt1, hbst1, hheap1, hred1, hpri1⟩ :=
          @ihr (some rk) hi p k v r0 rp hbr hhr hrr hknr
            (by simpa [lbOK] using h1) hub (heapOK_prioLe hhr hpr) (le_of_lt hplt)
        have hpri1b : prioLe t1 b := prioLe_mono hpri1 hrpb
        refine ⟨mkNode S rp rk rv l t1, ?_, ?_, ?_, ?_, ?_, ?_, ?_⟩
        · have hnk : ¬ k < rk := lt_asymm h1
          simp [NodeInsert, if_pos hplt, if_neg hnk, if_pos h1, heq1]
        · rw [entries_mkNode, hent1]
          show _ = ((entries l ++ (rk, rv) :: entries r).filter _) ++
            (k, v) :: ((entries l ++ (rk, rv) :: entries r).filter _)
          rw [List.filter_append, List.filter_append]
          have hself : (entries l).filter (fun e => decide (e.1 < k)) = entries l := by
            rw [List.filter_eq_self]
            intro e he
            have hek : e.1 < rk := by
              simpa [ubOK] using (bstOK_keys_bounds hbl e.1 (key_mem_keysOf he)).2
            simpa using lt_trans hek h1
          have hnil : (entries l).filter (fun e => decide (k < e.1)) = [] := by
            rw [List.filter_eq_nil_iff]
            intro e he
            have hek : e.1 < rk := by
              simpa [ubOK] using (bstOK_keys_bounds hbl e.1 (key_mem_keysOf he)).2
            simpa using lt_asymm (lt_trans hek h1)
          rw [hself, hnil, List.filter_cons_of_pos (by simpa using h1),
            List.filter_cons_of_neg (by simpa using lt_asymm h1)]
          simp
        · rw [count_mkNode, hcnt1]
          show _ = 1 + count l + count r + 1
          omega
        · rw [bstOK_mkNode]
          simp only [Bool.and_eq_true]
          exact ⟨⟨⟨hlb0, hub0⟩, hbl⟩, hbst1⟩
        · rw [heapOK_mkNode]
          simp only [Bool.and_eq_true]
          exact ⟨⟨⟨hpl, rootPrioLe_of_prioLe hpri1⟩, hhl⟩, hheap1⟩
        · rw [reducedOK_mkNode]
          simp only [Bool.and_eq_true]
          exact ⟨hrl, hred1⟩
        · exact ⟨hrpb, hplb, hpri1b⟩
    · have hball : bstOK lo hi (RTree.node rp rk rv rred l r) = true := by
        simp only [bstOK, Bool.and_eq_true]
        exact ⟨⟨⟨hlb0, hub0⟩, hbl⟩, hbr⟩
      have hhall : heapOK (RTree.node rp rk rv rred l r) = true := by
        simp only [heapOK, Bool.and_eq_true]
        exact ⟨⟨⟨hpl, hpr⟩, hhl⟩, hhr⟩
      have hrall : reducedOK S (RTree.node rp rk rv rred l r) = true := by
        simp only [reducedOK, Bool.and_eq_true, decide_eq_true_eq]
        exact ⟨⟨hred, hrl⟩, hrr⟩
      obtain ⟨sl, sr, hseq, hse1, hse2, hsc⟩ := split_spec S hball hk
      obtain ⟨v1, v2, v3, v4, v5, v6, v7, v8⟩ :=
        split_invariants S hseq hball hhall hrall
          (prioLe_mono (heapOK_node_prioLe hhall) (not_lt.mp hplt))
      have u7 : prioLe sl b := prioLe_mono v7 hpb
      have u8 : prioLe sr b := prioLe_mono v8 hpb
      refine ⟨mkNode S p k v sl sr, ?_, ?_, ?_, ?_, ?_, ?_, ?_⟩
      · simp [NodeInsert, if_neg hplt, hseq]
      · rw [entries_mkNode, hse1, hse2]
      · rw [count_mkNode]
        omega
      · rw [bstOK_mkNode]
        simp only [Bool.and_eq_true]
        exact ⟨⟨⟨hlb, hub⟩, v1⟩, v2⟩
      · rw [heapOK_mkNode]
        simp only [Bool.and_eq_true]
        exact ⟨⟨⟨rootPrioLe_of_prioLe v7, rootPrioLe_of_prioLe v8⟩, v3⟩, v4⟩
      · rw [reducedOK_mkNode]
        simp only [Bool.and_eq_true]
        exact ⟨v5, v6⟩
      · exact ⟨hpb, u7, u8⟩

theorem erase_not_found (S : ReducerSpec K V R) [DecidableEq R] {t : RTree K V R} :
    ∀ {key : K}, reducedOK S t = true → key ∉ keysOf t →
      NodeErase S t key = (t, false) := by
  induction t with
  | nil => intro key _ _; rfl
  | node p k v red l r ihl ihr =>
    intro key hrd hk
    simp only [reducedOK, Bool.and_eq_true, decide_eq_true_eq] at hrd
    obtain ⟨⟨hred, hrl⟩, hrr⟩ := hrd
    have hkneq : key ≠ k := fun h => hk (h ▸ mem_keysOf_root)
    have hknl : key ∉ keysOf l := fun h => hk (mem_keysOf_left h)
    have hknr : key ∉ keysOf r := fun h => hk (mem_keysOf_right h)
    rcases lt_trichotomy key k with h1 | h1 | h1
    · simp only [NodeErase, if_pos h1, ihl hrl hknl]
      rw [mkNode, ← hred]
    · exact absurd h1 hkneq
    · have hnk : ¬ key < k := lt_asymm h1
      simp only [NodeErase, if_neg hnk, if_pos h1, ihr hrr hknr]
      rw [mkNode, ← hred]

theorem erase_found (S : ReducerSpec K V R) [DecidableEq R] {t : RTree K V R} :
    ∀ {lo hi : Option K} {key : K} {b : Nat},
      bstOK lo hi t = true → heapOK t = true → reducedOK S t = true →
      prioLe t b → key ∈ keysOf t →
      (NodeErase S t key).2 = true ∧
      entries (NodeErase S t key).1 =
        (entries t).filter (fun e => decide (e.1 ≠ key)) ∧
      count (NodeErase S t key).1 + 1 = count t ∧
      bstOK lo hi (NodeErase S t key).1 = true ∧
      heapOK (NodeErase S t key).1 = true ∧
      reducedOK S (NodeErase S t key).1 = true ∧
      prioLe (NodeErase S t key).1 b := by
  induction t with
  | nil => intro lo hi key b _ _ _ _ hk; simp [keysOf, entries] at hk
  | node p k v red l r ihl ihr =>
    intro lo hi key b hb hh hrd hp hk
    simp only [bstOK, Bool.and_eq_true] at hb
    obtain ⟨⟨⟨hlb0, hub0⟩, hbl⟩, hbr⟩ := hb
    simp only [heapOK, Bool.and_eq_true] at hh
    obtain ⟨⟨⟨hpl, hpr⟩, hhl⟩, hhr⟩ := hh
    simp only [reducedOK, Bool.and_eq_true, decide_eq_true_eq] at hrd
    obtain ⟨⟨hred, hrl⟩, hrr⟩ := hrd
    obtain ⟨hpb, hplb, hprb⟩ := hp
    rcases lt_trichotomy key k with h1 | h1 | h1
    · have hknl : key ∈ keysOf l := by
        rw [keysOf_node] at hk
        rcases List.mem_append.mp hk with hx | hx
        · exact hx
        · rcases List.mem_cons.mp hx with rfl | hx
          · exact absurd h1 (lt_irrefl key)
          · have : k < key := by
              simpa [lbOK] using (bstOK_keys_bounds hbr key hx).1
            exact absurd this (lt_asymm h1)
      obtain ⟨q1, q2, q3, q4, q5, q6, q7⟩ := ihl hbl hhl hrl hplb hknl
      have q7p : prioLe (NodeErase S l key).1 p :=
        (ihl hbl hhl hrl (heapOK_prioLe hhl hpl) hknl).2.2.2.2.2.2
      refine ⟨?_, ?_, ?_, ?_, ?_, ?_, ?_⟩
      · simp only [NodeErase, if_pos h1]
        exact q1
      · simp only [NodeErase, if_pos h1]
        rw [entries_mkNode, q2]
        show _ = (entries l ++ (k, v) :: entries r).filter _
        rw [List.filter_append]
        have hcons : ((k, v) :: entries r).filter
            (fun e => decide (e.1 ≠ key)) = (k, v) :: entries r := by
          rw [List.filter_eq_self]
          intro e he
          rcases List.mem_cons.mp he with rfl | he
          · simpa using ne_of_gt h1
          · have hke : k < e.1 := by
              simpa [lbOK] using (bstOK_keys_bounds hbr e.1 (key_mem_keysOf he)).1
            simpa using ne_of_gt (lt_trans h1 hke)
        rw [hcons]
      · simp only [NodeErase, if_pos h1]
        rw [count_mkNode]
        show _ = 1 + count l + count r
        omega
      · simp only [NodeErase, if_pos h1]
        rw [bstOK_mkNode]
        simp only [Bool.and_eq_true]
        exact ⟨⟨⟨hlb0, hub0⟩, q4⟩, hbr⟩
      · simp only [NodeErase, if_pos h1]
        rw [heapOK_mkNode]
        simp only [Bool.and_eq_true]
        exact ⟨⟨⟨rootPrioLe_of_prioLe q7p, hpr⟩, q5⟩, hhr⟩
      · simp only [NodeErase, if_pos h1]
        rw [reducedOK_mkNode]
        simp only [Bool.and_eq_true]
        exact ⟨q6, hrr⟩
      · simp only [NodeErase, if_pos h1]
        exact ⟨hpb, q7, hprb⟩
    · subst h1
      have hup : ∀ x ∈ keysOf l, x < key :=
        fun x hx => by simpa [ubOK] using (bstOK_keys_bounds hbl x hx).2
      have hlo : ∀ y ∈ keysOf r, key < y :=
        fun y hy => by simpa [lbOK] using (bstOK_keys_bounds hbr y hy).1
      have hne : ¬ key < key := lt_irrefl key
      refine ⟨?_, ?_, ?_, ?_, ?_, ?_, ?_⟩
      · simp [NodeErase, if_neg hne]
      · simp only [NodeErase, if_neg hne]
        rw [merge_entries]
        show _ = (entries l ++ (key, v) :: entries r).filter _
        rw [List.filter_append]
        have hsl : (entries l).filter (fun e => decide (e.1 ≠ key)) = entries l := by
          rw [List.filter_eq_self]
          intro e he
          have := hup e.1 (key_mem_keysOf he)
          simpa using ne_of_lt this
        have hsr : ((key, v) :: entries r).filter
            (fun e => decide (e.1 ≠ key)) = entries r := by
          rw [List.filter_cons_of_neg (by simp)]
          rw [List.filter_eq_self]
          intro e he
          have := hlo e.1 (key_mem_keysOf he)
          simpa using ne_of_gt this
        rw [hsl, hsr]
      · simp only [NodeErase, if_neg hne]
        rw [merge_count]
        show _ = 1 + count l + count r
        omega
      · simp only [NodeErase, if_neg hne]
        apply merge_bstOK S
        · exact bstOK_mono (fun x hx => hx)
            (fun x hx => ubOK_of_lt (by simpa [ubOK] using hx) hub0) hbl
        · exact bstOK_mono
            (fun x hx => lbOK_of_lt (by simpa [lbOK] using hx) hlb0)
            (fun x hx => hx) hbr
        · exact fun x hx y hy => lt_trans (hup x hx) (hlo y hy)
      · simp only [NodeErase, if_neg hne]
        exact merge_heapOK S hhl hhr
      · simp only [NodeErase, if_neg hne]
        exact merge_reducedOK S hrl hrr
      · simp only [NodeErase, if_neg hne]
        exact merge_prioLe S hplb hprb
    · have hknr : key ∈ keysOf r := by
        rw [keysOf_node] at hk
        rcases List.mem_append.mp hk with hx | hx
        · have : key < k := by
            simpa [ubOK] using (bstOK_keys_bounds hbl key hx).2
          exact absurd this (lt_asymm h1)
        · rcases List.mem_cons.mp hx with rfl | hx
          · exact absurd h1 (lt_irrefl key)
          · exact hx
      have hnk : ¬ key < k := lt_asymm h1
      obtain ⟨q1, q2, q3, q4, q5, q6, q7⟩ := ihr hbr hhr hrr hprb hknr
      have q7p : prioLe (NodeErase S r key).1 p :=
        (ihr hbr hhr hrr (heapOK_prioLe hhr hpr) hknr).2.2.2.2.2.2
      refine ⟨?_, ?_, ?_, ?_, ?_, ?_, ?_⟩
      · simp only [NodeErase, if_neg hnk, if_pos h1]
        exact q1
      · simp only [NodeErase, if_neg hnk, if_pos h1]
        rw [entries_mkNode, q2]
        show _ = (entries l ++ (k, v) :: entries r).filter _
        rw [List.filter_append]
        have hself : (entries l).filter (fun e => decide (e.1 ≠ key)) = entries l := by
          rw [List.filter_eq_self]
          intro e he
          have hek : e.1 < k := by
            simpa [ubOK] using (bstOK_keys_bounds hbl e.1 (key_mem_keysOf he)).2
          simpa using ne_of_lt (lt_trans hek h1)
        have hcons : ((k, v) :: entries r).filter (fun e => decide (e.1 ≠ key)) =
            (k, v) :: (entries r).filter (fun e => decide (e.1 ≠ key)) := by
          rw [List.filter_cons_of_pos (by simpa using ne_of_lt h1)]
        rw [hself, hcons]
      · simp only [NodeErase, if_neg hnk, if_pos h1]
        rw [count_mkNode]
        show _ = 1 + count l + count r
        omega
      · simp only [NodeErase, if_neg hnk, if_pos h1]
        rw [bstOK_mkNode]
        simp only [Bool.and_eq_true]
        exact ⟨⟨⟨hlb0, hub0⟩, hbl⟩, q4⟩
      · simp only [NodeErase, if_neg hnk, if_pos h1]
        rw [heapOK_mkNode]
        simp only [Bool.and_eq_true]
        exact ⟨⟨⟨hpl, rootPrioLe_of_prioLe q7p⟩, hhl⟩, q5⟩
      · simp only [NodeErase, if_neg hnk, if_pos h1]
        rw [reducedOK_mkNode]
        simp only [Bool.and_eq_true]
        exact ⟨hrl, q6⟩
      · simp only [NodeErase, if_neg hnk, if_pos h1]
        exact ⟨hpb, hplb, q7⟩

theorem heapOK_prioLe_any {t : RTree K V R} (h : heapOK t = true) (p : Nat) :
    ∃ b, prioLe t b ∧ p ≤ b := by
  cases t with
  | nil => exact ⟨p, trivial, le_refl p⟩
  | node q k v red l r =>
    exact ⟨max p q, prioLe_mono (heapOK_node_prioLe h) (le_max_right p q),
      le_max_left p q⟩

theorem reachable_invariant {S : ReducerSpec K V R} [DecidableEq R]
    {t : TreeState K V R} (h : Reachable S t) :
    bstOK none none t.root = true ∧ heapOK t.root = true ∧
    reducedOK S t.root = true ∧ count t.root = t.size := by
  induction h with
  | empty => exact ⟨rfl, rfl, rfl, rfl⟩
  | insertStep hre hstep ih =>
    rename_i t t' p k v r0 b2
    obtain ⟨hbst, hheap, hred, hcnt⟩ := ih
    by_cases hf : (Find t.root k).isSome = true
    · rw [TreeInsert, if_pos hf] at hstep
      simp only [Option.some.injEq, Prod.mk.injEq] at hstep
      obtain ⟨h1, _⟩ := hstep
      rw [← h1]
      exact ⟨hbst, hheap, hred, hcnt⟩
    · have hk : k ∉ keysOf t.root := fun hm =>
        hf ((find_isSome_iff hbst k).mpr hm)
      obtain ⟨b, hpl, hpb⟩ := heapOK_prioLe_any hheap p
      obtain ⟨t1, heq1, _, hcnt1, hbst1, hheap1, hred1, _⟩ :=
        insert_spec S p k v r0 hbst hheap hred hk rfl rfl hpl hpb
      rw [TreeInsert, if_neg hf, heq1] at hstep
      simp only [Option.some.injEq, Prod.mk.injEq] at hstep
      obtain ⟨h1, _⟩ := hstep
      rw [← h1]
      exact ⟨hbst1, hheap1, hred1, by simp [hcnt1, hcnt]⟩
  | eraseStep hre hstep ih =>
    rename_i t t' k b2
    obtain ⟨hbst, hheap, hred, hcnt⟩ := ih
    by_cases hk : k ∈ keysOf t.root
    · obtain ⟨b, hpl, _⟩ := heapOK_prioLe_any hheap 0
      obtain ⟨q1, _, q3, q4, q5, q6, _⟩ :=
        erase_found S hbst hheap hred hpl hk
      rw [TreeErase] at hstep
      simp only [Prod.mk.injEq] at hstep
      obtain ⟨h1, _⟩ := hstep
      rw [← h1, q1]
      exact ⟨q4, q5, q6, by simp [q1]; omega⟩
    · have hne := erase_not_found S hred hk
      rw [TreeErase, hne] at hstep
      simp only [Prod.mk.injEq] at hstep
      obtain ⟨h1, _⟩ := hstep
      rw [← h1]
      exact ⟨hbst, hheap, hred, hcnt⟩

theorem prefixLt_fold {S : ReducerSpec K V R} [DecidableEq R] (hS : LawfulReducer S)
    {t : RTree K V R} :
    ∀ {lo hi : Option K}, bstOK lo hi t = true → reducedOK S t = true →
      ∀ q : K, PrefixLt S t q =
        foldSeeds S ((entries t).filter (fun e => decide (e.1 < q))) := by
  induction t with
  | nil => intro lo hi _ _ q; simp [PrefixLt, entries, foldSeeds]
  | node p k v red l r ihl ihr =>
    intro lo hi hb hrd q
    simp only [bstOK, Bool.and_eq_true] at hb
    obtain ⟨⟨⟨hlb0, hub0⟩, hbl⟩, hbr⟩ := hb
    simp only [reducedOK, Bool.and_eq_true, decide_eq_true_eq] at hrd
    obtain ⟨⟨hred, hrl⟩, hrr⟩ := hrd
    rcases lt_trichotomy q k with h1 | h1 | h1
    · rw [PrefixLt, if_pos h1, ihl hbl hrl q]
      congr 1
      show _ = (entries l ++ (k, v) :: entries r).filter _
      rw [List.filter_append]
      have hnil : ((k, v) :: entries r).filter (fun e => decide (e.1 < q)) = [] := by
        rw [List.filter_eq_nil_iff]
        intro e he
        rcases List.mem_cons.mp he with rfl | he
        · simpa using lt_asymm h1
        · have hke : k < e.1 := by
            simpa [lbOK] using (bstOK_keys_bounds hbr e.1 (key_mem_keysOf he)).1
          simpa using lt_asymm (lt_trans h1 hke)
      rw [hnil, List.append_nil]
    · subst h1
      rw [PrefixLt, if_neg (lt_irrefl q), if_pos rfl]
      rw [reduce_eq_fold hS hrl]
      congr 1
      show _ = (entries l ++ (q, v) :: entries r).filter _
      rw [List.filter_append]
      have hself : (entries l).filter (fun e => decide (e.1 < q)) = entries l := by
        rw [List.filter_eq_self]
        intro e he
        simpa [ubOK] using (bstOK_keys_bounds hbl e.1 (key_mem_keysOf he)).2
      have hnil : ((q, v) :: entries r).filter (fun e => decide (e.1 < q)) = [] := by
        rw [List.filter_eq_nil_iff]
        intro e he
        rcases List.mem_cons.mp he with rfl | he
        · simp
        · have hke : q < e.1 := by
            simpa [lbOK] using (bstOK_keys_bounds hbr e.1 (key_mem_keysOf he)).1
          simpa using lt_asymm hke
      rw [hself, hnil, List.append_nil]
    · have hq1 : ¬ q < k := lt_asymm h1
      have hq2 : ¬ q = k := fun h => absurd (h ▸ h1) (lt_irrefl k)
      rw [PrefixLt, if_neg hq1, if_neg hq2, reduce_eq_fold hS hrl, ihr hbr hrr q]
      show _ = foldSeeds S ((entries l ++ (k, v) :: entries r).filter _)
      rw [List.filter_append]
      have hself : (entries l).filter (fun e => decide (e.1 < q)) = entries l := by
        rw [List.filter_eq_self]
        intro e he
        have hek : e.1 < k := by
          simpa [ubOK] using (bstOK_keys_bounds hbl e.1 (key_mem_keysOf he)).2
        simpa using lt_trans hek h1
      rw [hself, List.filter_cons_of_pos (by simpa using h1)]
      rw [foldSeeds_append hS, foldSeeds_cons hS, ← hS.add_assoc]

theorem triples_map_fst (t : RTree K V R) :
    (triples t).map (fun e => e.1) = keysOf t := by
  induction t with
  | nil => rfl
  | node p k v red l r ihl ihr =>
    rw [keysOf_node]
    simp [triples, ihl, ihr]

theorem forAll_eq_all (t : RTree K V R) (f : K → V → R → Bool) :
    ForAll t f = (triples t).all (fun e => f e.1 e.2.1 e.2.2) := by
  induction t with
  | nil => rfl
  | node p k v red l r ihl ihr =>
    simp [ForAll, triples, ihl, ihr, List.all_append]

theorem callsUpTo_of_all {f : K → V → R → Bool} {es : List (K × V × R)}
    (h : es.all (fun e => f e.1 e.2.1 e.2.2) = true) : callsUpTo f es = es := by
  induction es with
  | nil => rfl
  | cons e es ih =>
    simp only [List.all_cons, Bool.and_eq_true] at h
    simp [callsUpTo, h.1, ih h.2]

theorem callsUpTo_append (f : K → V → R → Bool) (xs ys : List (K × V × R)) :
    callsUpTo f (xs ++ ys) =
      if xs.all (fun e => f e.1 e.2.1 e.2.2) then xs ++ callsUpTo f ys
      else callsUpTo f xs := by
  induction xs with
  | nil => simp
  | cons e xs ih =>
    by_cases hf : f e.1 e.2.1 e.2.2
    · simp [callsUpTo, hf, ih]
      by_cases ha : xs.all (fun e => f e.1 e.2.1 e.2.2)
      · simp [ha, hf]
      · simp [ha, hf]
    · simp [callsUpTo, hf]

theorem forAllCalls_fst (t : RTree K V R) (f : K → V → R → Bool) :
    (ForAllCalls t f).1 = ForAll t f := by
  induction t with
  | nil => rfl
  | node p k v red l r ihl ihr =>
    simp only [ForAllCalls, ForAll, ← ihl, ← ihr]
    cases h1 : (ForAllCalls l f).1 <;> cases h2 : f k v red <;> simp [h1, h2]

theorem forAllCalls_calls (t : RTree K V R) (f : K → V → R → Bool) :
    (ForAllCalls t f).2 = callsUpTo f (triples t) := by
  induction t with
  | nil => rfl
  | node p k v red l r ihl ihr =>
    have hfst := forAllCalls_fst l f
    have hall := forAll_eq_all l f
    show (ForAllCalls (.node p k v red l r) f).2 = callsUpTo f (triples l ++ (k, v, red) :: triples r)
    rw [callsUpTo_append]
    cases h1 : (ForAllCalls l f).1 with
    | false =>
      have hna : (triples l).all (fun e => f e.1 e.2.1 e.2.2) = false := by
        rw [← hall, ← hfst, h1]
      simp only [ForAllCalls, h1, hna]
      simp [ihl]
    | true =>
      have hna : (triples l).all (fun e => f e.1 e.2.1 e.2.2) = true := by
        rw [← hall, ← hfst, h1]
      have hcl : (ForAllCalls l f).2 = triples l := by
        rw [ihl, callsUpTo_of_all hna]
      cases h2 : f k v red with
      | false =>
        simp only [ForAllCalls, h1, h2, hna]
        simp [hcl, callsUpTo, h2]
      | true =>
        simp only [ForAllCalls, h1, h2, hna]
        simp [hcl, callsUpTo, h2, ihr]

theorem triples_subtree {t : RTree K V R} :
    ∀ e ∈ triples t, ∃ q l2 r2,
      IsSubtree (.node q e.1 e.2.1 e.2.2 l2 r2 : RTree K V R) t := by
  induction t with
  | nil => simp [triples]
  | node p k v red l r ihl ihr =>
    intro e he
    simp only [triples, List.mem_append, List.mem_cons] at he
    rcases he with he | rfl | he
    · obtain ⟨q, l2, r2, hs⟩ := ihl e he
      exact ⟨q, l2, r2, IsSubtree.inLeft p k v red r hs⟩
    · exact ⟨p, l, r, IsSubtree.refl _⟩
    · obtain ⟨q, l2, r2, hs⟩ := ihr e he
      exact ⟨q, l2, r2, IsSubtree.inRight p k v red l hs⟩

theorem subtree_reducedOK {S : ReducerSpec K V R} [DecidableEq R]
    {s t : RTree K V R} (hs : IsSubtree s t) (h : reducedOK S t = true) :
    reducedOK S s = true := by
  induction hs with
  | refl => exact h
  | inLeft p k v red r hsub ih =>
    apply ih
    simp only [reducedOK, Bool.and_eq_true] at h
    exact h.1.2
  | inRight p k v red l hsub ih =>
    apply ih
    simp only [reducedOK, Bool.and_eq_true] at h
    exact h.2

theorem lawful_S0 : LawfulReducer S0 := by
  constructor <;> intros <;> simp [S0]

theorem reach_s1 : Reachable S0 s1 :=
  Reachable.insertStep Reachable.empty
    (by decide : TreeInsert S0 s0 3 10 0 [] = some (s1, true))

theorem reach_s2 : Reachable S0 s2 :=
  Reachable.insertStep reach_s1
    (by decide : TreeInsert S0 s1 2 5 1 [] = some (s2, true))

theorem reach_s3 : Reachable S0 s3 :=
  Reachable.insertStep reach_s2
    (by decide : TreeInsert S0 s2 1 20 2 [] = some (s3, true))

theorem treeForAll_eq (t : TreeState K V R) (f : K → V → R → Bool) :
    TreeForAll t f = ForAll t.root f := by
  rw [TreeForAll]
  cases t.root <;> rfl

theorem merge_rootInfo_left (S : ReducerSpec K V R) {pa pb : Nat} {ka kb : K}
    {va vb : V} {ra rb : R} {la rA lb rB : RTree K V R} (h : pa > pb) :
    rootInfo (Merge S (.node pa ka va ra la rA) (.node pb kb vb rb lb rB)) =
      some (pa, ka) := by
  rw [Merge, if_pos h]
  rfl

theorem merge_rootInfo_right (S : ReducerSpec K V R) {pa pb : Nat} {ka kb : K}
    {va vb : V} {ra rb : R} {la rA lb rB : RTree K V R} (h : ¬ pa > pb) :
    rootInfo (Merge S (.node pa ka va ra la rA) (.node pb kb vb rb lb rB)) =
      some (pb, kb) := by
  rw [Merge, if_neg h]
  rfl

/-- C1: for every tree state reachable by Insert/Erase and every query key
`q`, `PrefixLt(q)` returns the left fold, in ascending key order (the
in-order entry list of a valid BST is strictly ascending), of the seeds
`R(k, v)` over exactly the entries with key `k < q`; on the empty tree,
and whenever no key is below `q`, it returns the default-constructed
reducer. -/
theorem c1_prefixLt_correct {S : ReducerSpec K V R} [DecidableEq R]
    {t : TreeState K V R} (hreach : Reachable S t) (hS : LawfulReducer S)
    (q : K) :
    TreePrefixLt S t q =
      foldSeeds S ((entries t.root).filter (fun e => decide (e.1 < q))) ∧
    (keysOf t.root).Pairwise (· < ·) ∧
    (t.root = .nil → TreePrefixLt S t q = S.default) ∧
    ((entries t.root).filter (fun e => decide (e.1 < q)) = [] →
      TreePrefixLt S t q = S.default) := by
  obtain ⟨hbst, hheap, hred, hcnt⟩ := reachable_invariant hreach
  have h1 : TreePrefixLt S t q =
      foldSeeds S ((entries t.root).filter (fun e => decide (e.1 < q))) :=
    prefixLt_fold hS hbst hred q
  refine ⟨h1, bstOK_pairwise hbst, ?_, ?_⟩
  · intro h
    rw [h1, h]
    rfl
  · intro h
    rw [h1, h]
    rfl

theorem c1_witness :
    TreePrefixLt S0 s3 12 =
      foldSeeds S0 ((entries s3.root).filter (fun e => decide (e.1 < 12))) ∧
    (keysOf s3.root).Pairwise (· < ·) ∧
    (s3.root = .nil → TreePrefixLt S0 s3 12 = S0.default) ∧
    ((entries s3.root).filter (fun e => decide (e.1 < 12)) = [] →
      TreePrefixLt S0 s3 12 = S0.default) :=
  c1_prefixLt_correct reach_s3 lawful_S0 12

/-- C2: after every public operation (the mutators Insert and Erase; Find,
PrefixLt and ForAll are const and leave the state untouched) the four
structural invariants hold on the reachable state: BST order with
globally unique keys, heap order with ties tolerated, cached fold
consistency at every node, and the facade size counter equal to the
number of reachable nodes. -/
theorem c2_invariants_hold {S : ReducerSpec K V R} [DecidableEq R]
    {t : TreeState K V R} (hreach : Reachable S t) :
    bstOK none none t.root = true ∧ (keysOf t.root).Nodup ∧
    heapOK t.root = true ∧ reducedOK S t.root = true ∧
    count t.root = t.size := by
  obtain ⟨h1, h2, h3, h4⟩ := reachable_invariant hreach
  exact ⟨h1, (bstOK_pairwise h1).imp ne_of_lt, h2, h3, h4⟩

theorem c2_witness :
    bstOK none none s3.root = true ∧ (keysOf s3.root).Nodup ∧
    heapOK s3.root = true ∧ reducedOK S0 s3.root = true ∧
    count s3.root = s3.size :=
  c2_invariants_hold reach_s3

/-- C3: the facade `Insert(k, v)` returns `true` exactly on the first
insertion of `k` (when `k` is absent); when `k` is already present it
returns `false` and leaves the state, including the size counter,
completely unchanged; on success the entry is added and the size counter
is incremented. -/
theorem c3_insert_first_time {S : ReducerSpec K V R} [DecidableEq R]
    {t : TreeState K V R} (hreach : Reachable S t)
    (p : Nat) (k : K) (v : V) (r0 : R) :
    (k ∈ keysOf t.root → TreeInsert S t p k v r0 = some (t, false)) ∧
    (k ∉ keysOf t.root →
      (TreeInsert S t p k v r0).map (fun x => x.2) = some true ∧
      (TreeInsert S t p k v r0).map (fun x => entries x.1.root) =
        some ((entries t.root).filter (fun e => decide (e.1 < k)) ++
          (k, v) :: (entries t.root).filter (fun e => decide (k < e.1))) ∧
      (TreeInsert S t p k v r0).map (fun x => x.1.size) = some (t.size + 1)) := by
  obtain ⟨hbst, hheap, hred, hcnt⟩ := reachable_invariant hreach
  constructor
  · intro hk
    have hf : (Find t.root k).isSome = true := (find_isSome_iff hbst k).mpr hk
    simp [TreeInsert, hf]
  · intro hk
    have hf : ¬ (Find t.root k).isSome = true :=
      fun h => hk ((find_isSome_iff hbst k).mp h)
    obtain ⟨b, hpl, hpb⟩ := heapOK_prioLe_any hheap p
    obtain ⟨t1, heq1, hent1, _, _, _, _, _⟩ :=
      insert_spec S p k v r0 hbst hheap hred hk rfl rfl hpl hpb
    refine ⟨?_, ?_, ?_⟩ <;> simp [TreeInsert, hf, heq1, hent1]

theorem c3_witness :
    (10 ∈ keysOf s3.root → TreeInsert S0 s3 9 10 7 [] = some (s3, false)) ∧
    (10 ∉ keysOf s3.root →
      (TreeInsert S0 s3 9 10 7 []).map (fun x => x.2) = some true ∧
      (TreeInsert S0 s3 9 10 7 []).map (fun x => entries x.1.root) =
        some ((entries s3.root).filter (fun e => decide (e.1 < 10)) ++
          (10, 7) :: (entries s3.root).filter (fun e => decide (10 < e.1))) ∧
      (TreeInsert S0 s3 9 10 7 []).map (fun x => x.1.size) = some (s3.size + 1)) :=
  c3_insert_first_time reach_s3 9 10 7 []

/-- C4 (counterexample): at a tie the existing root does not stay the
subtree root.  Inserting a fresh node of priority 5 and key 20 into a
single-node subtree of equal priority 5 and key 10 makes the new node the
subtree root, with the old root split below it. -/
theorem c4_counterexample :
    NodeInsert S0 (.node 5 10 0 [(10, 0)] .nil .nil) 5 20 0 [] =
      some (.node 5 20 0 [(10, 0), (20, 0)]
        (.node 5 10 0 [(10, 0)] .nil .nil) .nil) ∧
    ¬ rootInfo ((NodeInsert S0 (.node 5 10 0 [(10, 0)] .nil .nil)
        5 20 0 []).getD .nil) = some (5, 10) := by
  constructor
  · decide
  · decide

/-- C4 (amended): the first branch of `Node::Insert` (the existing root
stays) requires the fresh node's priority to be strictly below the root's;
when the priorities are equal the second branch runs instead: the existing
subtree is split by the new key and the new node becomes the subtree root
with the two halves as its children. -/
theorem c4_tie_second_branch {S : ReducerSpec K V R}
    {rp p : Nat} {rk k : K} {rv v : V} {rred r0 : R} {l r : RTree K V R}
    (hp : p = rp) :
    NodeInsert S (.node rp rk rv rred l r) p k v r0 =
      (Split S (.node rp rk rv rred l r) k).map
        (fun s => mkNode S p k v s.1 s.2) := by
  have hnp : ¬ p < rp := by omega
  rw [NodeInsert, if_neg hnp]
  cases Split S (.node rp rk rv rred l r) k with
  | none => rfl
  | some s => rfl

theorem c4_witness :
    NodeInsert S0 (.node 5 10 0 [(10, 0)] .nil .nil) 5 20 0 [] =
      (Split S0 (.node 5 10 0 [(10, 0)] .nil .nil) 20).map
        (fun s => mkNode S0 5 20 0 s.1 s.2) :=
  c4_tie_second_branch rfl

/-- C5: for every valid subtree and key not present in it, `Split` returns
(with the duplicate-key assertion branch unreachable: the result is
`some`, never a silent duplicate) the pair whose left part holds exactly
the entries below the key and whose right part holds exactly those above;
`Split(null, k)` is `(null, null)`. -/
theorem c5_split_partition {S : ReducerSpec K V R} {t : RTree K V R}
    {lo hi : Option K} {key : K}
    (hb : bstOK lo hi t = true) (hk : key ∉ keysOf t) :
    (Split S t key).map (fun s => entries s.1) =
      some ((entries t).filter (fun e => decide (e.1 < key))) ∧
    (Split S t key).map (fun s => entries s.2) =
      some ((entries t).filter (fun e => decide (key < e.1))) ∧
    Split S (.nil : RTree K V R) key = some (.nil, .nil) := by
  obtain ⟨sl, sr, heq, h1, h2, _⟩ := split_spec S hb hk
  rw [heq]
  exact ⟨by simp [h1], by simp [h2], rfl⟩

theorem c5_witness :
    (Split S0 s3.root 15).map (fun s => entries s.1) =
      some ((entries s3.root).filter (fun e => decide (e.1 < 15))) ∧
    (Split S0 s3.root 15).map (fun s => entries s.2) =
      some ((entries s3.root).filter (fun e => decide (15 < e.1))) ∧
    Split S0 (.nil : RTree Nat Nat (List (Nat × Nat))) 15 = some (.nil, .nil) :=
  c5_split_partition (by decide : bstOK none none s3.root = true) (by decide)

/-- C6: for valid treap subtrees whose keys are fully ordered one below
the other, `Merge` returns a tree holding exactly the entries of both (in
order), the null cases return the other argument, the root is whichever
input root has the strictly higher priority, and BST order, heap order
and the cached reductions are preserved. -/
theorem c6_merge_correct {S : ReducerSpec K V R} [DecidableEq R]
    {a b : RTree K V R}
    (hba : bstOK none none a = true) (hbb : bstOK none none b = true)
    (hha : heapOK a = true) (hhb : heapOK b = true)
    (hra : reducedOK S a = true) (hrb : reducedOK S b = true)
    (hcross : ∀ x ∈ keysOf a, ∀ y ∈ keysOf b, x < y) :
    entries (Merge S a b) = entries a ++ entries b ∧
    Merge S .nil b = b ∧ Merge S a .nil = a ∧
    (∀ pa ka pb kb, rootInfo a = some (pa, ka) → rootInfo b = some (pb, kb) →
      (pb < pa → rootInfo (Merge S a b) = some (pa, ka)) ∧
      (pa < pb → rootInfo (Merge S a b) = some (pb, kb))) ∧
    bstOK none none (Merge S a b) = true ∧ heapOK (Merge S a b) = true ∧
    reducedOK S (Merge S a b) = true := by
  refine ⟨merge_entries S a b, by simp [Merge], by cases a <;> simp [Merge],
    ?_, merge_bstOK S hba hbb hcross, merge_heapOK S hha hhb,
    merge_reducedOK S hra hrb⟩
  intro pa ka pb kb hia hib
  cases a with
  | nil => simp [rootInfo] at hia
  | node qa xa va ra la rA =>
    cases b with
    | nil => simp [rootInfo] at hib
    | node qb xb vb rb2 lb rB =>
      simp only [rootInfo, Option.some.injEq, Prod.mk.injEq] at hia hib
      obtain ⟨rfl, rfl⟩ := hia
      obtain ⟨rfl, rfl⟩ := hib
      constructor
      · intro hlt
        exact merge_rootInfo_left S hlt
      · intro hlt
        exact merge_rootInfo_right S (by omega)

theorem c6_witness :
    entries (Merge S0 (.node 4 1 0 [(1, 0)] .nil .nil)
        (.node 7 9 0 [(9, 0)] .nil .nil)) =
      entries (.node 4 1 0 [(1, 0)] .nil .nil : RTree Nat Nat (List (Nat × Nat))) ++
        entries (.node 7 9 0 [(9, 0)] .nil .nil : RTree Nat Nat (List (Nat × Nat))) ∧
    Merge S0 .nil (.node 7 9 0 [(9, 0)] .nil .nil) =
      .node 7 9 0 [(9, 0)] .nil .nil ∧
    Merge S0 (.node 4 1 0 [(1, 0)] .nil .nil) .nil =
      .node 4 1 0 [(1, 0)] .nil .nil ∧
    (∀ pa ka pb kb,
      rootInfo (.node 4 1 0 [(1, 0)] .nil .nil : RTree Nat Nat (List (Nat × Nat))) =
        some (pa, ka) →
      rootInfo (.node 7 9 0 [(9, 0)] .nil .nil : RTree Nat Nat (List (Nat × Nat))) =
        some (pb, kb) →
      (pb < pa → rootInfo (Merge S0 (.node 4 1 0 [(1, 0)] .nil .nil)
        (.node 7 9 0 [(9, 0)] .nil .nil)) = some (pa, ka)) ∧
      (pa < pb → rootInfo (Merge S0 (.node 4 1 0 [(1, 0)] .nil .nil)
        (.node 7 9 0 [(9, 0)] .nil .nil)) = some (pb, kb))) ∧
    bstOK none none (Merge S0 (.node 4 1 0 [(1, 0)] .nil .nil)
      (.node 7 9 0 [(9, 0)] .nil .nil)) = true ∧
    heapOK (Merge S0 (.node 4 1 0 [(1, 0)] .nil .nil)
      (.node 7 9 0 [(9, 0)] .nil .nil)) = true ∧
    reducedOK S0 (Merge S0 (.node 4 1 0 [(1, 0)] .nil .nil)
      (.node 7 9 0 [(9, 0)] .nil .nil)) = true :=
  c6_merge_correct (by decide) (by decide) (by decide) (by decide)
    (by decide) (by decide) (by decide)

/-- C7: `Erase(k)` returns `false` iff `k` is absent, in which case the
state (entries, structure, cached reductions, size counter) is completely
unchanged; when `k` is present exactly that entry is removed (at the root
the node is replaced by the merge of its children) and the size counter
decreases by one; erasing twice has the same effect as erasing once, the
second call returning `false`. -/
theorem c7_erase_semantics {S : ReducerSpec K V R} [DecidableEq R]
    {t : TreeState K V R} (hreach : Reachable S t) (k : K) :
    ((TreeErase S t k).2 = false ↔ k ∉ keysOf t.root) ∧
    (k ∉ keysOf t.root → TreeErase S t k = (t, false)) ∧
    (k ∈ keysOf t.root →
      entries (TreeErase S t k).1.root =
        (entries t.root).filter (fun e => decide (e.1 ≠ k)) ∧
      (TreeErase S t k).1.size + 1 = t.size) ∧
    (∀ p v red l r, t.root = .node p k v red l r →
      (TreeErase S t k).1.root = Merge S l r) ∧
    TreeErase S (TreeErase S t k).1 k = ((TreeErase S t k).1, false) := by
  obtain ⟨hbst, hheap, hred, hcnt⟩ := reachable_invariant hreach
  have hroot : ∀ p v red l r, t.root = .node p k v red l r →
      (TreeErase S t k).1.root = Merge S l r := by
    intro p v red l r h
    simp [TreeErase, h, NodeErase, lt_irrefl]
  by_cases hk : k ∈ keysOf t.root
  · obtain ⟨b, hpl, _⟩ := heapOK_prioLe_any hheap 0
    obtain ⟨q1, q2, q3, _, _, hrd1, _⟩ := erase_found S hbst hheap hred hpl hk
    have hTE : TreeErase S t k = (⟨(NodeErase S t.root k).1, t.size - 1⟩, true) := by
      rw [TreeErase]
      simp [q1]
    have hk2 : k ∉ keysOf (NodeErase S t.root k).1 := by
      intro hm
      simp only [keysOf] at hm
      rw [q2] at hm
      simp only [List.mem_map, List.mem_filter, decide_eq_true_eq] at hm
      obtain ⟨e, ⟨_, hne⟩, hek⟩ := hm
      exact hne hek
    have hne2 := erase_not_found S hrd1 hk2
    refine ⟨?_, ?_, fun _ => ⟨?_, ?_⟩, hroot, ?_⟩
    · rw [hTE]
      simp [hk]
    · intro hm
      exact absurd hk hm
    · rw [hTE]
      exact q2
    · rw [hTE]
      simp only [hcnt] at q3
      simp
      omega
    · rw [hTE, TreeErase]
      simp [hne2]
  · have hne := erase_not_found S hred hk
    have hfix : TreeErase S t k = (t, false) := by
      rw [TreeErase, hne]
      simp
    refine ⟨?_, fun _ => hfix, fun hm => absurd hm hk, hroot, ?_⟩
    · rw [hfix]
      simp [hk]
    · rw [hfix]
      exact hfix

theorem c7_witness :
    ((TreeErase S0 s3 10).2 = false ↔ 10 ∉ keysOf s3.root) ∧
    (10 ∉ keysOf s3.root → TreeErase S0 s3 10 = (s3, false)) ∧
    (10 ∈ keysOf s3.root →
      entries (TreeErase S0 s3 10).1.root =
        (entries s3.root).filter (fun e => decide (e.1 ≠ 10)) ∧
      (TreeErase S0 s3 10).1.size + 1 = s3.size) ∧
    (∀ p v red l r, s3.root = .node p 10 v red l r →
      (TreeErase S0 s3 10).1.root = Merge S0 l r) ∧
    TreeErase S0 (TreeErase S0 s3 10).1 10 = ((TreeErase S0 s3 10).1, false) :=
  c7_erase_semantics reach_s3 10

/-- C8: `ForAll(f)` is an in-order traversal calling `f(key, value,
reduced)` with the cached reduction of the subtree rooted at the visited
node (not a running prefix), visiting the present keys exactly once in
strictly ascending order, short-circuiting at the first `false` (the call
trace is exactly the triples up to and including the first refused one),
returning `true` iff `f` answered `true` everywhere, and `true` with no
calls on the empty tree. -/
theorem c8_forall_traversal {S : ReducerSpec K V R} [DecidableEq R]
    {t : TreeState K V R} (hreach : Reachable S t) (hS : LawfulReducer S)
    (f : K → V → R → Bool) :
    TreeForAll t f = (triples t.root).all (fun e => f e.1 e.2.1 e.2.2) ∧
    (ForAllCalls t.root f).1 = TreeForAll t f ∧
    (ForAllCalls t.root f).2 = callsUpTo f (triples t.root) ∧
    (triples t.root).map (fun e => e.1) = keysOf t.root ∧
    ((triples t.root).map (fun e => e.1)).Pairwise (· < ·) ∧
    (∀ e ∈ triples t.root, ∃ q l2 r2,
      IsSubtree (.node q e.1 e.2.1 e.2.2 l2 r2 : RTree K V R) t.root ∧
      e.2.2 = foldSeeds S
        (entries (.node q e.1 e.2.1 e.2.2 l2 r2 : RTree K V R))) ∧
    (t.root = .nil → TreeForAll t f = true ∧ (ForAllCalls t.root f).2 = []) := by
  obtain ⟨hbst, hheap, hred, hcnt⟩ := reachable_invariant hreach
  refine ⟨?_, ?_, forAllCalls_calls t.root f, triples_map_fst t.root, ?_, ?_, ?_⟩
  · rw [treeForAll_eq]
    exact forAll_eq_all t.root f
  · rw [treeForAll_eq]
    exact forAllCalls_fst t.root f
  · rw [triples_map_fst]
    exact bstOK_pairwise hbst
  · intro e he
    obtain ⟨q, l2, r2, hs⟩ := triples_subtree e he
    refine ⟨q, l2, r2, hs, ?_⟩
    have hrs : reducedOK S (.node q e.1 e.2.1 e.2.2 l2 r2 : RTree K V R) = true :=
      subtree_reducedOK hs hred
    have := reduce_eq_fold hS hrs
    simpa [Reduce] using this
  · intro h
    rw [treeForAll_eq, h]
    exact ⟨rfl, rfl⟩

theorem c8_witness :
    TreeForAll s3 (fun k _ _ => decide (k < 15)) =
      (triples s3.root).all (fun e => decide (e.1 < 15)) ∧
    (ForAllCalls s3.root (fun k _ _ => decide (k < 15))).1 =
      TreeForAll s3 (fun k _ _ => decide (k < 15)) ∧
    (ForAllCalls s3.root (fun k _ _ => decide (k < 15))).2 =
      callsUpTo (fun k _ _ => decide (k < 15)) (triples s3.root) ∧
    (triples s3.root).map (fun e => e.1) = keysOf s3.root ∧
    ((triples s3.root).map (fun e => e.1)).Pairwise (· < ·) ∧
    (∀ e ∈ triples s3.root, ∃ q l2 r2,
      IsSubtree (.node q e.1 e.2.1 e.2.2 l2 r2 : RTree Nat Nat (List (Nat × Nat)))
        s3.root ∧
      e.2.2 = foldSeeds S0
        (entries (.node q e.1 e.2.1 e.2.2 l2 r2 :
          RTree Nat Nat (List (Nat × Nat))))) ∧
    (s3.root = .nil → TreeForAll s3 (fun k _ _ => decide (k < 15)) = true ∧
      (ForAllCalls s3.root (fun k _ _ => decide (k < 15))).2 = []) :=
  c8_forall_traversal reach_s3 lawful_S0 (fun k _ _ => decide (k < 15))

/-- C9: although the `ReducerNode` constructor leaves `_reduced` undefined
(here the arbitrary value `r0`), `Node::Insert` establishes it before the
node becomes reachable: inserting a fresh childless node into an empty
subtree returns that node with `reduced` equal to exactly `R(key, value)`
whatever `r0` was; consequently every node of a reachable tree state has a
consistent `reduced` field. -/
theorem c9_fresh_node_reduced (S : ReducerSpec K V R) [DecidableEq R] :
    (∀ (p : Nat) (k : K) (v : V) (r0 : R),
      NodeInsert S .nil p k v r0 =
        some (.node p k v (S.seed k v) .nil .nil)) ∧
    (∀ t : TreeState K V R, Reachable S t → reducedOK S t.root = true) := by
  constructor
  · intro p k v r0
    rfl
  · intro t h
    exact (reachable_invariant h).2.2.1

theorem c9_witness :
    NodeInsert S0 .nil 7 4 5 [(9, 9)] =
      some (.node 7 4 5 (S0.seed 4 5) .nil .nil) ∧
    reducedOK S0 s3.root = true :=
  ⟨(c9_fresh_node_reduced S0).1 7 4 5 [(9, 9)],
    (c9_fresh_node_reduced S0).2 s3 reach_s3⟩

/-- C10: when `Merge` joins two non-empty heap-ordered subtrees whose root
priorities are equal, the root of the second argument (the subtree holding
the larger keys) becomes the root of the result, and heap order with ties
allowed still holds on the returned tree. -/
theorem c10_merge_tie {S : ReducerSpec K V R} {pa pb : Nat} {ka kb : K}
    {va vb : V} {ra rb : R} {la rA lb rB : RTree K V R}
    (hp : pa = pb)
    (hha : heapOK (.node pa ka va ra la rA : RTree K V R) = true)
    (hhb : heapOK (.node pb kb vb rb lb rB : RTree K V R) = true) :
    rootInfo (Merge S (.node pa ka va ra la rA)
      (.node pb kb vb rb lb rB)) = some (pb, kb) ∧
    heapOK (Merge S (.node pa ka va ra la rA)
      (.node pb kb vb rb lb rB)) = true := by
  constructor
  · exact merge_rootInfo_right S (by omega)
  · exact merge_heapOK S hha hhb

theorem c10_witness :
    rootInfo (Merge S0 (.node 4 1 0 [(1, 0)] .nil .nil)
      (.node 4 9 0 [(9, 0)] .nil .nil)) = some (4, 9) ∧
    heapOK (Merge S0 (.node 4 1 0 [(1, 0)] .nil .nil)
      (.node 4 9 0 [(9, 0)] .nil .nil)) = true :=
  c10_merge_tie rfl (by decide) (by decide)

end ReducerTree
